import Mathlib

/-!
Verification of the 9router gateway against its specification.

Pure functions from the repository are shallowly embedded as Lean
definitions; JavaScript numbers are modelled by `JNum` (NaN, signed
infinities, and exact rationals for the finite values), and JavaScript
values that may be `undefined`/`null` by `JVal`.  Components of the
engine whose source is not in the repository snapshot are modelled
from the specification text and marked as such in their doc comments.
-/

/-- JavaScript number: NaN, +Infinity, -Infinity, or a finite value
(modelled exactly as a rational; signed zero is not distinguished). -/
inductive JNum where
  | nan : JNum
  | posInf : JNum
  | negInf : JNum
  | fin : ℚ → JNum
deriving DecidableEq, Repr

namespace JNum

/-- JavaScript `<` on numbers: any comparison with NaN is false. -/
def jlt : JNum → JNum → Bool
  | nan, _ => false
  | _, nan => false
  | negInf, negInf => false
  | negInf, _ => true
  | _, negInf => false
  | posInf, _ => false
  | fin _, posInf => true
  | fin a, fin b => a < b

/-- JavaScript `<=` on numbers: any comparison with NaN is false. -/
def jle : JNum → JNum → Bool
  | nan, _ => false
  | _, nan => false
  | negInf, _ => true
  | posInf, posInf => true
  | posInf, _ => false
  | fin _, posInf => true
  | fin _, negInf => false
  | fin a, fin b => a ≤ b

/-- Idealized exact-rational instance of JavaScript (float64)
division.  Special values (NaN, infinities, zero divisors and
dividends) follow IEEE-754 exactly (signed zero not distinguished:
division of a nonzero finite value by zero uses the sign of the
dividend, and `0 / 0` is NaN), but a finite-by-finite quotient is the
exact rational, ignoring float64 rounding, overflow and underflow.
The claim theorems therefore quantify over arbitrary division and
multiplication functions; this instance is applied only on inputs
where it agrees bit-exactly with float64. -/
def jdiv : JNum → JNum → JNum
  | nan, _ => nan
  | _, nan => nan
  | posInf, posInf => nan
  | posInf, negInf => nan
  | negInf, posInf => nan
  | negInf, negInf => nan
  | posInf, fin b => if b < 0 then negInf else posInf
  | negInf, fin b => if b < 0 then posInf else negInf
  | fin _, posInf => fin 0
  | fin _, negInf => fin 0
  | fin a, fin b =>
      if b = 0 then
        if a = 0 then nan else if a < 0 then negInf else posInf
      else fin (a / b)

/-- Idealized exact-rational instance of JavaScript (float64)
multiplication (signed zero not distinguished); special values follow
IEEE-754 exactly, finite products are exact rationals.  Used only
where it agrees bit-exactly with float64, as for `jdiv`. -/
def jmul : JNum → JNum → JNum
  | nan, _ => nan
  | _, nan => nan
  | posInf, posInf => posInf
  | posInf, negInf => negInf
  | negInf, posInf => negInf
  | negInf, negInf => posInf
  | posInf, fin b => if b = 0 then nan else if b < 0 then negInf else posInf
  | negInf, fin b => if b = 0 then nan else if b < 0 then posInf else negInf
  | fin a, posInf => if a = 0 then nan else if a < 0 then negInf else posInf
  | fin a, negInf => if a = 0 then nan else if a < 0 then posInf else negInf
  | fin a, fin b => fin (a * b)

/-- JavaScript `Number.isFinite`. -/
def isFinite : JNum → Bool
  | fin _ => true
  | _ => false

end JNum

/-- A JavaScript value that a numeric parameter may hold:
`undefined`, `null`, or a number. -/
inductive JVal where
  | undef : JVal
  | null : JVal
  | num : JNum → JVal
deriving DecidableEq, Repr

/-- The duration the code selects (the `durationMs` ternary):
`outputDurationMs` when it is a number `> 0`, otherwise
`latencyMs`. -/
def selectedDurationMs (latencyMs : JNum) (outputDurationMs : JVal) : JNum :=
  match outputDurationMs with
  | JVal.num d => if JNum.jlt (JNum.fin 0) d then d else latencyMs
  | _ => latencyMs

/-- Embedding of `calculateThroughput` from
`open-sse/utils/throughputCalc.js`: returns `none` for the JavaScript
`null` result and `some t` for a numeric throughput `t` in
tokens/second.  The float64 division and the multiplication by 1000
are abstracted as the parameters `fdiv` and `fmul`, so the theorems
hold for every rounding behavior, overflow and underflow included;
the guards compare only against `0` and test `Number.isFinite`, which
float64 performs exactly. -/
def calculateThroughput (fdiv fmul : JNum → JNum → JNum)
    (completionTokens latencyMs outputDurationMs : JVal) : Option JNum :=
  match completionTokens, latencyMs with
  | JVal.num t, JVal.num l =>
      -- `completionTokens <= 0 || latencyMs <= 0` → null
      if JNum.jle t (JNum.fin 0) || JNum.jle l (JNum.fin 0) then none
      else
        -- streaming duration when defined and > 0, else total latency
        let durationMs : JNum := selectedDurationMs l outputDurationMs
        if JNum.jle durationMs (JNum.fin 0) then none
        else
          let throughput := fmul (fdiv t durationMs) (JNum.fin 1000)
          if !(JNum.isFinite throughput) || JNum.jlt throughput (JNum.fin 0)
          then none
          else some throughput
  | _, _ => none

/-- The allowlist from `src/lib/settingsAllowlist.js`
(`ALLOWED_SETTINGS_KEYS`). -/
def ALLOWED_SETTINGS_KEYS : List String :=
  ["cloudEnabled",
   "cloudUrl",
   "stickyRoundRobinLimit",
   "requireLogin",
   "observabilityEnabled",
   "observabilityMaxRecords",
   "observabilityBatchSize",
   "observabilityFlushIntervalMs",
   "observabilityMaxJsonSize",
   "password"]

/-- Embedding of `filterAllowedSettings` from
`src/lib/settingsAllowlist.js`.  A request body is a map from property
names to JavaScript values (`none` = absent or `undefined`); the
result object is the association list built by walking the allowlist
and copying each defined value. -/
def filterAllowedSettings {α : Type} (body : String → Option α) :
    List (String × α) :=
  ALLOWED_SETTINGS_KEYS.filterMap (fun k => (body k).map (fun v => (k, v)))

/-- JavaScript `String.prototype.startsWith`, on the character
lists underlying the strings. -/
def charListStartsWith : List Char → List Char → Bool
  | _, [] => true
  | [], _ :: _ => false
  | c :: cs, d :: ds => c = d && charListStartsWith cs ds

/-- `s.startsWith(p)`. -/
def jsStartsWith (s p : String) : Bool :=
  charListStartsWith s.data p.data

/-- Accumulator loop for JavaScript `String.prototype.split` with a
single-character separator. -/
def jsSplitAux (sep : Char) : List Char → List Char → List String
  | [], acc => [String.mk acc.reverse]
  | c :: cs, acc =>
      if c = sep then String.mk acc.reverse :: jsSplitAux sep cs []
      else jsSplitAux sep cs (c :: acc)

/-- JavaScript `s.split(sep)` for a one-character separator: every
maximal separator-free segment, including empty ones. -/
def jsSplit (s : String) (sep : Char) : List String :=
  jsSplitAux sep s.data []

/-- JavaScript `String.prototype.trim` (strip leading and trailing
whitespace). -/
def jsTrim (s : String) : String :=
  String.mk
    (((s.data.dropWhile Char.isWhitespace).reverse.dropWhile
        Char.isWhitespace).reverse)

/-- `LEGACY_API_KEY_SECRET` from the Worker API-key utilities. -/
def LEGACY_API_KEY_SECRET : String := "endpoint-proxy-api-key-secret"

/-- The secret `generateCrc` actually signs with:
`(secret && secret.trim()) || LEGACY_API_KEY_SECRET` — the trimmed
configured secret when that is non-empty, else the legacy default. -/
def effectiveSecret : Option String → String
  | none => LEGACY_API_KEY_SECRET
  | some s =>
      let x := if s = "" then s else jsTrim s
      if x = "" then LEGACY_API_KEY_SECRET else x

/-- `hashHex.slice(0, 8)`: the first 8 characters of a hex digest. -/
def hexSlice8 (s : String) : String := String.mk (s.data.take 8)

/-- Embedding of `generateCrc` from the Worker API-key utilities.
The HMAC-SHA256 hex digest itself is abstracted as a function
`hmacSha256Hex key data`; `generateCrc` keys it with the effective
secret over `machineId + keyId` and keeps the first 8 hex
characters. -/
def generateCrc (hmacSha256Hex : String → String → String)
    (machineId keyId : String) (secret : Option String) : String :=
  hexSlice8 (hmacSha256Hex (effectiveSecret secret) (machineId ++ keyId))

/-- Result shape of `parseApiKey`. -/
structure ParsedKey where
  machineId : Option String
  keyId : String
  isNewFormat : Bool
deriving DecidableEq, Repr

/-- Embedding of `parseApiKey` from the Worker API-key utilities
(the `crc !== expectedCrc → null` early return is written as the
equivalent positive conditional). -/
def parseApiKey (hmacSha256Hex : String → String → String)
    (apiKey : String) (apiKeySecret : Option String) : Option ParsedKey :=
  if apiKey = "" ∨ jsStartsWith apiKey "sk-" = false then none
  else
    match jsSplit apiKey '-' with
    | [_, machineId, keyId, crc] =>
        if crc = generateCrc hmacSha256Hex machineId keyId apiKeySecret then
          some ⟨some machineId, keyId, true⟩
        else none
    | [_, keyId] => some ⟨none, keyId, false⟩
    | _ => none

/-- JavaScript `String.prototype.endsWith`, on the underlying
character lists. -/
def jsEndsWith (s p : String) : Bool :=
  charListStartsWith s.data.reverse p.data.reverse

/-- The test `/^\d+$/.test(s)`: non-empty and all ASCII digits. -/
def regexDigitsPlus (s : String) : Bool :=
  !s.data.isEmpty && s.data.all Char.isDigit

/-- The fields of a parsed `URL` object that
`getAllowedRedirectUri` inspects. -/
structure URLParts where
  origin : String
  pathname : String
  hostname : String
  port : String
deriving DecidableEq, Repr

/-- Embedding of `getAllowedRedirectUri` from
`src/lib/oauth/utils/redirectUri.js`.  The WHATWG URL parser is
abstracted as `parseURL`, with `none` standing for the `new URL`
constructor throwing (the `catch` branch). -/
def getAllowedRedirectUri (parseURL : String → Option URLParts)
    (origin : String) (requestedRedirectUri : Option String) :
    Option String :=
  let defaultCallback := origin ++ "/callback"
  match requestedRedirectUri with
  | none => some defaultCallback
  | some r =>
      if r = "" then some defaultCallback
      else
        match parseURL r with
        | none => none
        | some u =>
            if u.pathname ≠ "/callback" ∧
                jsEndsWith u.pathname "/callback" = false then none
            else
              if u.origin = origin ∨
                  ((u.hostname = "localhost" ∨ u.hostname = "127.0.0.1") ∧
                   (u.port = "" ∨ regexDigitsPlus u.port = true)) then
                some r
              else none

/-- Error classes of the Account Fallback Policy (spec §4.3). -/
inductive ErrClass where
  | Transient
  | AuthExpired
  | QuotaExceeded
  | Fatal
deriving DecidableEq, Repr

/-- An account identifier. -/
abbrev AccountId := Nat

/-- Modelled from the spec: the mutable per-Account state the engine
touches — "rate/quota cooldown state (`cooledDownUntil`, last error
class)" (spec §3, Account).  The executor/credential fields are not
needed by the selection claims. -/
structure AccountState where
  cooledDownUntil : Option Nat
  lastError : Option ErrClass
deriving DecidableEq, Repr

/-- An account is cooled down at `now` when its `cooledDownUntil`
lies in the future. -/
def accountCooled (st : AccountState) (now : Nat) : Bool :=
  match st.cooledDownUntil with
  | some t => now < t
  | none => false

/-- Modelled from the spec: `selectNext(combo, context) -> Account |
Exhausted` (spec §4.3).  The context's position in the Combo is the
suffix `rem` of accounts not yet attempted; selection skips any
account whose cooldown window is in the future and returns the chosen
account together with the suffix behind it (fallback only advances an
index into the immutable Combo).  `none` is `Exhausted`. -/
def selectNext (rem : List AccountId) (st : AccountId → AccountState)
    (now : Nat) : Option (AccountId × List AccountId) :=
  match rem with
  | [] => none
  | a :: rest =>
      if accountCooled (st a) now then selectNext rest st now
      else some (a, rest)

/-- The Fallback Policy's action on QuotaExceeded (spec §4.3): set
`cooledDownUntil` on that Account to now + a provider-specific backoff
window and record the error class. -/
def setQuotaCooldown (st : AccountId → AccountState) (a : AccountId)
    (t : Nat) : AccountId → AccountState :=
  fun x =>
    if x = a then
      { cooledDownUntil := some t, lastError := some ErrClass.QuotaExceeded }
    else st x

/-- Result of one orchestrated run over a Combo. -/
structure FallbackResult where
  result : Except Unit AccountId
  selectCalls : Nat
  networkCalls : Nat
  finalState : AccountId → AccountState

lemma selectNext_rest_length {rem : List AccountId}
    {st : AccountId → AccountState} {now : Nat} {a : AccountId}
    {rest : List AccountId} (h : selectNext rem st now = some (a, rest)) :
    rest.length < rem.length := by
  induction rem with
  | nil => exact Option.noConfusion h
  | cons b xs ih =>
      rw [selectNext] at h
      split_ifs at h with hc
      · exact Nat.lt_trans (ih h) (by simp)
      · injection h with h'
        obtain ⟨rfl, rfl⟩ := Prod.mk.injEq .. ▸ h'
        simp

/-- Modelled from the spec: the Orchestrator's fallback loop
(spec §4.3/§4.4, restricted to QuotaExceeded failures, the only class
the claims under proof exercise).  Each iteration asks `selectNext`
for the next eligible account; `Exhausted` aborts with an error, a
successful network call returns the account, and a quota failure
cools the account down and advances.  `outcome a = true` means the
network call against `a` succeeds. -/
def runFallback (outcome : AccountId → Bool) (backoff now : Nat)
    (rem : List AccountId) (st : AccountId → AccountState)
    (selCalls netCalls : Nat) : FallbackResult :=
  match h : selectNext rem st now with
  | none => ⟨Except.error (), selCalls + 1, netCalls, st⟩
  | some (a, rest) =>
      if outcome a then ⟨Except.ok a, selCalls + 1, netCalls + 1, st⟩
      else
        runFallback outcome backoff now rest
          (setQuotaCooldown st a (now + backoff)) (selCalls + 1) (netCalls + 1)
termination_by rem.length
decreasing_by exact selectNext_rest_length h

/-- Modelled from the spec: the aggregated `ComboExhaustedError`
payload — one entry per account of the Combo, citing the last failure
recorded on that account (spec §7). -/
def comboExhaustedError (combo : List AccountId)
    (st : AccountId → AccountState) : List (AccountId × Option ErrClass) :=
  combo.map (fun a => (a, (st a).lastError))

/-- Modelled from the spec: a whole request execution over a Combo.
On exhaustion the Orchestrator surfaces a single aggregated error;
otherwise the serving account.  Also reports how many times
`selectNext` was invoked and how many network calls were made. -/
def executeCombo (outcome : AccountId → Bool) (backoff now : Nat)
    (combo : List AccountId) (st : AccountId → AccountState) :
    Except (List (AccountId × Option ErrClass)) AccountId × Nat × Nat :=
  let r := runFallback outcome backoff now combo st 0 0
  match r.result with
  | Except.error _ =>
      (Except.error (comboExhaustedError combo r.finalState),
        r.selectCalls, r.networkCalls)
  | Except.ok a => (Except.ok a, r.selectCalls, r.networkCalls)

/-- An upstream streaming event: a content frame or the explicit
terminal end-of-stream marker.  Upstream connection close is the end
of the event list. -/
inductive StreamEvent where
  | contentDelta (chunk : String)
  | terminalMarker
deriving DecidableEq, Repr

/-- Outcome of a streaming execution: a successful completion record,
or a `StreamTruncatedError` carrying the frames already flushed. -/
inductive StreamOutcome where
  | completed (emitted : List String)
  | truncated (emitted : List String)
deriving DecidableEq, Repr

/-- Modelled from the spec: the Streaming Controller consumes the
upstream event sequence, re-emitting content frames, and terminates
on the explicit end-of-stream marker; an upstream close with no
terminal marker is reported as a stream error, never as a successful
completion (spec §4.4, §7 `StreamTruncatedError`). -/
def runStream : List StreamEvent → List String → StreamOutcome
  | [], emitted => StreamOutcome.truncated emitted.reverse
  | StreamEvent.terminalMarker :: _, emitted =>
      StreamOutcome.completed emitted.reverse
  | StreamEvent.contentDelta c :: rest, emitted =>
      runStream rest (c :: emitted)

/-- A whole streaming execution over the upstream events. -/
def processUpstream (events : List StreamEvent) : StreamOutcome :=
  runStream events []

/-- The content frames of an upstream event sequence. -/
def contentFrames (events : List StreamEvent) : List String :=
  events.filterMap (fun e =>
    match e with
    | StreamEvent.contentDelta c => some c
    | StreamEvent.terminalMarker => none)

/-- Modelled from the spec: `StreamTelemetry` — request-start
timestamp, time-to-first-byte, time-of-last-byte, chunk count
(spec §3). -/
structure StreamTelemetry where
  requestStart : Nat
  ttfb : Option Nat
  tlb : Option Nat
  chunkCount : Nat
deriving DecidableEq, Repr

/-- On the first byte observed, record time-to-first-byte
(spec §4.4). -/
def recordFirstByte (t : StreamTelemetry) (ts : Nat) : StreamTelemetry :=
  if t.ttfb.isNone then { t with ttfb := some ts } else t

/-- Modelled from the spec: the Streaming Controller's telemetry
walk over the timestamped upstream events — first byte observed sets
time-to-first-byte, the terminal event sets time-of-last-byte and
ends the stream (spec §4.4). -/
def buildTelemetryAux :
    List (Nat × StreamEvent) → StreamTelemetry → StreamTelemetry
  | [], t => t
  | (ts, e) :: rest, t =>
      let t1 := recordFirstByte t ts
      match e with
      | StreamEvent.terminalMarker => { t1 with tlb := some ts }
      | StreamEvent.contentDelta _ =>
          buildTelemetryAux rest { t1 with chunkCount := t1.chunkCount + 1 }

/-- Telemetry of a whole stream started at `start`. -/
def buildTelemetry (start : Nat) (events : List (Nat × StreamEvent)) :
    StreamTelemetry :=
  buildTelemetryAux events ⟨start, none, none, 0⟩

/-- A supported vendor wire format. -/
inductive SourceFormat where
  | openai
  | claude
  | gemini
deriving DecidableEq, Repr

/-- Modelled from the spec: a vendor-format chat request — core
fields (model, messages as role/content pairs, stream flag) plus
vendor-specific parameters with no canonical equivalent (spec §4.1). -/
structure RawRequest where
  format : SourceFormat
  model : String
  messages : List (String × String)
  stream : Bool
  vendorExtras : List (String × String)
deriving DecidableEq, Repr

/-- Modelled from the spec: `CanonicalRequest` — vendor-neutral
fields, plus the passthrough side-channel holding the source vendor's
lossy fields so a same-vendor round trip is lossless (spec §3,
§4.1). -/
structure CanonicalRequest where
  model : String
  messages : List (String × String)
  stream : Bool
  passthrough : Option (SourceFormat × List (String × String))
deriving DecidableEq, Repr

/-- Modelled from the spec: `toCanonical(sourceFormat, rawRequest)`
(spec §4.1) — fails closed when the request is not in the declared
source format, else builds the canonical request and attaches the
vendor extras to the passthrough side-channel. -/
def toCanonical (sourceFormat : SourceFormat) (r : RawRequest) :
    Except Unit CanonicalRequest :=
  if r.format ≠ sourceFormat then Except.error ()
  else
    Except.ok
      { model := r.model, messages := r.messages, stream := r.stream,
        passthrough := some (sourceFormat, r.vendorExtras) }

/-- Modelled from the spec: `fromCanonical(targetFormat, canonical)`
(spec §4.1) — re-materializes the vendor request; the passthrough
extras are restored only for the vendor they came from, and dropped
on a cross-vendor round trip. -/
def fromCanonical (targetFormat : SourceFormat) (c : CanonicalRequest) :
    RawRequest :=
  { format := targetFormat, model := c.model, messages := c.messages,
    stream := c.stream,
    vendorExtras :=
      match c.passthrough with
      | some (f, extras) => if f = targetFormat then extras else []
      | none => [] }

/-- An event at one Account's refresh gate: a caller arrives needing
fresh credentials, or the in-flight refresh completes with a new
token. -/
inductive RefreshEvent where
  | request (caller : Nat)
  | refreshComplete (token : Nat)
deriving DecidableEq, Repr

/-- State of one Account's refresh gate: the callers waiting on the
in-flight refresh (if any), how many underlying `refreshCredentials`
calls were issued, and which token each caller observed. -/
structure RefreshState where
  inFlight : Option (List Nat)
  refreshCalls : Nat
  results : List (Nat × Nat)
deriving DecidableEq, Repr

/-- Modelled from the spec: refresh collapsing (spec §4.2, §5) — a
caller arriving while a refresh for the Account is in flight joins
the waiters of that refresh instead of issuing a second call; a
caller arriving with no refresh in flight issues the single
underlying call; completion delivers the same refreshed token to
every waiter.  Concurrency is modelled as the interleaving order of
the events in the trace; per-Account writes are serialized by the
per-Account mutual-exclusion section. -/
def refreshStep (st : RefreshState) (e : RefreshEvent) : RefreshState :=
  match e with
  | RefreshEvent.request c =>
      match st.inFlight with
      | some waiters => { st with inFlight := some (waiters ++ [c]) }
      | none =>
          { st with
            inFlight := some [c]
            refreshCalls := st.refreshCalls + 1 }
  | RefreshEvent.refreshComplete token =>
      match st.inFlight with
      | some waiters =>
          { st with
            inFlight := none
            results := st.results ++ waiters.map (fun c => (c, token)) }
      | none => st

/-- Run a trace of refresh-gate events from the idle state. -/
def runRefresh (trace : List RefreshEvent) : RefreshState :=
  trace.foldl refreshStep ⟨none, 0, []⟩

/-- Any value surviving the final guard
`!Number.isFinite(throughput) || throughput < 0` is a finite
non-negative rational. -/
lemma finalGuard_safety (x : JNum)
    (h : ¬((!(JNum.isFinite x) || JNum.jlt x (JNum.fin 0)) = true)) :
    ∃ q : ℚ, x = JNum.fin q ∧ 0 ≤ q := by
  cases x with
  | nan => simp [JNum.isFinite] at h
  | posInf => simp [JNum.isFinite] at h
  | negInf => simp [JNum.isFinite] at h
  | fin q =>
      refine ⟨q, rfl, ?_⟩
      simp [JNum.isFinite, JNum.jlt] at h
      exact h

/-- The result of `calculateThroughput` is `null` or a finite
non-negative number, for arbitrary JavaScript inputs and arbitrary
float division/multiplication behavior. -/
lemma calculateThroughput_safety (fdiv fmul : JNum → JNum → JNum)
    (ct lat dur : JVal) :
    calculateThroughput fdiv fmul ct lat dur = none ∨
    ∃ q : ℚ, calculateThroughput fdiv fmul ct lat dur
        = some (JNum.fin q) ∧ 0 ≤ q := by
  rcases ct with _ | _ | t
  · exact Or.inl rfl
  · exact Or.inl rfl
  rcases lat with _ | _ | l
  · exact Or.inl rfl
  · exact Or.inl rfl
  simp only [calculateThroughput]
  split_ifs with h1 h2 h3
  · exact Or.inl rfl
  · exact Or.inl rfl
  · exact Or.inl rfl
  · right
    obtain ⟨q, hq, hq0⟩ := finalGuard_safety _ h3
    exact ⟨q, by rw [hq], hq0⟩

/-- C1, counterexample.  With `completionTokens = 5`, `latencyMs = 0`
and `outputDurationMs = 100`, the selected duration is `100 > 0` and
the token count is positive, so the claim requires the positive
quotient `50`; the code returns `null` because of its separate guard
on `latencyMs` — a path that performs no arithmetic at all.  Moreover
with `latencyMs = +Infinity` the code returns `0`, which is not
strictly positive; on that path the idealized arithmetic instance
coincides bit-exactly with float64 (`5 / Infinity` is exactly `+0`
and `0 * 1000` is exactly `0` in IEEE-754). -/
theorem calculateThroughput_claim_counterexample :
    calculateThroughput JNum.jdiv JNum.jmul (JVal.num (JNum.fin 5))
        (JVal.num (JNum.fin 0)) (JVal.num (JNum.fin 100)) = none ∧
    selectedDurationMs (JNum.fin 0) (JVal.num (JNum.fin 100))
        = JNum.fin 100 ∧
    ((0:ℚ) < 5 ∧ (0:ℚ) < 100) ∧
    calculateThroughput JNum.jdiv JNum.jmul (JVal.num (JNum.fin 5))
        (JVal.num JNum.posInf) JVal.undef = some (JNum.fin 0) := by
  refine ⟨?_, by simp [selectedDurationMs, JNum.jlt], by norm_num, ?_⟩
  · simp [calculateThroughput, JNum.jle]
  · simp [calculateThroughput, selectedDurationMs, JNum.jle, JNum.jlt,
      JNum.jdiv, JNum.jmul, JNum.isFinite]

/-- C1, amended: for every input and for every rounding behavior of
the underlying float64 division and multiplication (overflow and
underflow included), `calculateThroughput` never returns a negative
or non-finite number.  It returns `null` whenever
`completionTokens <= 0` or `latencyMs <= 0`, and whenever the
selected duration is `<= 0`; and any non-null result is exactly the
computed value `(completionTokens / durationMs) * 1000`, which the
final guard has validated finite and non-negative.  (Float64 overflow
or underflow can thus make the result `null` or `0` even at finite
positive inputs.) -/
theorem calculateThroughput_amended :
    (∀ (fdiv fmul : JNum → JNum → JNum) (ct lat dur : JVal),
        calculateThroughput fdiv fmul ct lat dur = none ∨
        ∃ q : ℚ, calculateThroughput fdiv fmul ct lat dur
            = some (JNum.fin q) ∧ 0 ≤ q) ∧
    (∀ (fdiv fmul : JNum → JNum → JNum) (t l : JNum) (dur : JVal),
        (JNum.jle t (JNum.fin 0) = true ∨ JNum.jle l (JNum.fin 0) = true →
          calculateThroughput fdiv fmul (JVal.num t) (JVal.num l) dur
            = none) ∧
        (JNum.jle (selectedDurationMs l dur) (JNum.fin 0) = true →
          calculateThroughput fdiv fmul (JVal.num t) (JVal.num l) dur
            = none) ∧
        (∀ x, calculateThroughput fdiv fmul (JVal.num t) (JVal.num l) dur
              = some x →
          x = fmul (fdiv t (selectedDurationMs l dur)) (JNum.fin 1000) ∧
          JNum.isFinite x = true ∧
          JNum.jlt x (JNum.fin 0) = false)) := by
  constructor
  · exact calculateThroughput_safety
  · intro fdiv fmul t l dur
    refine ⟨?_, ?_, ?_⟩
    · intro h
      simp only [calculateThroughput]
      rw [if_pos]
      rcases h with h | h <;> simp [h]
    · intro h
      simp only [calculateThroughput]
      by_cases h1 : (JNum.jle t (JNum.fin 0) || JNum.jle l (JNum.fin 0))
          = true
      · rw [if_pos h1]
      · rw [if_neg h1, if_pos h]
    · intro x hx
      simp only [calculateThroughput] at hx
      split_ifs at hx with h1 h2 h3
      obtain ⟨q, hq, hq0⟩ := finalGuard_safety _ h3
      injection hx with hx'
      subst hx'
      refine ⟨rfl, ?_, ?_⟩
      · rw [hq]
        rfl
      · rw [hq]
        simp only [JNum.jlt]
        exact decide_eq_false (not_lt.mpr hq0)

/-- C1 witness: zero completion tokens yield `null`, for any
division/multiplication behavior (instantiated at the idealized
arithmetic). -/
theorem calculateThroughput_amended_witness :
    calculateThroughput JNum.jdiv JNum.jmul (JVal.num (JNum.fin 0))
        (JVal.num (JNum.fin 200)) JVal.undef = none := by
  exact (calculateThroughput_amended.2 JNum.jdiv JNum.jmul (JNum.fin 0)
      (JNum.fin 200) JVal.undef).1 (Or.inl (by simp [JNum.jle]))

lemma filterAllowedSettings_keys_aux {α : Type} (body : String → Option α)
    (L : List String) :
    (L.filterMap (fun k => (body k).map (fun v => (k, v)))).map Prod.fst
      = L.filter (fun k => (body k).isSome) := by
  induction L with
  | nil => rfl
  | cons a L ih => cases hb : body a <;> simp [hb, ih]

/-- C9: `filterAllowedSettings` keeps exactly the allowlisted keys
whose value is defined in the body, with values copied unchanged;
every key outside `ALLOWED_SETTINGS_KEYS` is absent from the result,
so PATCH /api/settings can never apply a non-allowlisted setting. -/
theorem filterAllowedSettings_allowlist {α : Type} (body : String → Option α) :
    (∀ (k : String) (v : α),
        (k, v) ∈ filterAllowedSettings body ↔
          k ∈ ALLOWED_SETTINGS_KEYS ∧ body k = some v) ∧
    (filterAllowedSettings body).map Prod.fst
      = ALLOWED_SETTINGS_KEYS.filter (fun k => (body k).isSome) := by
  constructor
  · intro k v
    simp only [filterAllowedSettings, List.mem_filterMap, Option.map_eq_some']
    constructor
    · rintro ⟨a, ha, w, hw, heq⟩
      obtain ⟨rfl, rfl⟩ := Prod.mk.injEq .. ▸ heq
      exact ⟨ha, hw⟩
    · rintro ⟨hk, hv⟩
      exact ⟨k, hk, v, hv, rfl⟩
  · exact filterAllowedSettings_keys_aux body ALLOWED_SETTINGS_KEYS

lemma jsStartsWith_ne_empty {s : String} (h : jsStartsWith s "sk-" = true) :
    s ≠ "" := by
  intro he
  rw [he] at h
  exact absurd h (by decide)

/-- C8: `parseApiKey` returns `null` unless the key starts with
`sk-` and splits on `-` into exactly 2 or 4 parts; a 4-part key
`sk-{machineId}-{keyId}-{crc}` parses as the new format exactly when
`crc` equals the first 8 hex characters of the HMAC-SHA256 digest of
`machineId + keyId` under the effective secret (the configured secret,
or the legacy default when none is configured); a 2-part key `sk-{id}`
parses as the old format with no integrity verification at all (the
result does not depend on the digest function or the secret). -/
theorem parseApiKey_spec (hmac : String → String → String)
    (secret : Option String) (s : String) :
    (jsStartsWith s "sk-" = false → parseApiKey hmac s secret = none) ∧
    ((jsSplit s '-').length ≠ 2 → (jsSplit s '-').length ≠ 4 →
        parseApiKey hmac s secret = none) ∧
    (∀ p0 mid kid crc, jsSplit s '-' = [p0, mid, kid, crc] →
        (parseApiKey hmac s secret = some ⟨some mid, kid, true⟩ ↔
            jsStartsWith s "sk-" = true ∧
            crc = hexSlice8 (hmac (effectiveSecret secret) (mid ++ kid))) ∧
        (crc ≠ hexSlice8 (hmac (effectiveSecret secret) (mid ++ kid)) →
            parseApiKey hmac s secret = none)) ∧
    (∀ p0 kid, jsStartsWith s "sk-" = true →
        jsSplit s '-' = [p0, kid] →
        ∀ (hmac' : String → String → String) (secret' : Option String),
          parseApiKey hmac' s secret' = some ⟨none, kid, false⟩) := by
  refine ⟨?_, ?_, ?_, ?_⟩
  · intro h
    unfold parseApiKey
    rw [if_pos (Or.inr h)]
  · intro h2 h4
    by_cases hg : (s = "" ∨ jsStartsWith s "sk-" = false)
    · simp [parseApiKey, hg]
    · rcases hL : jsSplit s '-' with _ | ⟨a, _ | ⟨b, _ | ⟨c, _ | ⟨d, _ | rest⟩⟩⟩⟩
      · simp [parseApiKey, if_neg hg, hL]
      · simp [parseApiKey, if_neg hg, hL]
      · rw [hL] at h2; simp at h2
      · simp [parseApiKey, if_neg hg, hL]
      · rw [hL] at h4; simp at h4
      · simp [parseApiKey, if_neg hg, hL]
  · intro p0 mid kid crc hsplit
    constructor
    · constructor
      · intro h
        by_cases hg : (s = "" ∨ jsStartsWith s "sk-" = false)
        · simp [parseApiKey, hg] at h
        · push_neg at hg
          obtain ⟨hne, hsw⟩ := hg
          refine ⟨Bool.of_not_eq_false hsw, ?_⟩
          have hg' : ¬(s = "" ∨ jsStartsWith s "sk-" = false) := by
            rintro (h1 | h2)
            · exact hne h1
            · exact hsw h2
          simp only [parseApiKey, if_neg hg', hsplit] at h
          by_cases hc : crc = generateCrc hmac mid kid secret
          · exact hc
          · simp [hc] at h
      · rintro ⟨hsw, hcrc⟩
        have hg : ¬(s = "" ∨ jsStartsWith s "sk-" = false) := by
          rintro (h1 | h2)
          · exact jsStartsWith_ne_empty hsw h1
          · rw [h2] at hsw; exact Bool.noConfusion hsw
        simp [parseApiKey, if_neg hg, hsplit, generateCrc, hcrc]
    · intro hne
      by_cases hg : (s = "" ∨ jsStartsWith s "sk-" = false)
      · simp [parseApiKey, hg]
      · simp [parseApiKey, if_neg hg, hsplit, generateCrc, hne]
  · intro p0 kid hsw hsplit hmac' secret'
    have hg : ¬(s = "" ∨ jsStartsWith s "sk-" = false) := by
      rintro (h1 | h2)
      · exact jsStartsWith_ne_empty hsw h1
      · rw [h2] at hsw; exact Bool.noConfusion hsw
    simp [parseApiKey, if_neg hg, hsplit]

/-- C8 witness: a concrete 4-part key with a matching CRC parses as
the new format. -/
theorem parseApiKey_spec_witness :
    parseApiKey (fun _ _ => "0123456789abcdef") "sk-m-k-01234567" none
      = some ⟨some "m", "k", true⟩ := by
  exact ((parseApiKey_spec (fun _ _ => "0123456789abcdef") none
      "sk-m-k-01234567").2.2.1 "sk" "m" "k" "01234567" (by decide)).1.mpr
    ⟨by decide, by decide⟩

/-- C10: `getAllowedRedirectUri` returns `origin ++ "/callback"` for a
missing or empty requested URI; a non-empty requested URI is returned
unchanged exactly when it parses as a URL whose pathname is
`/callback` or ends with `/callback` and which is same-origin or a
`localhost`/`127.0.0.1` URL with an empty or purely numeric port; in
every other case (including unparseable input) the result is
`null`. -/
theorem getAllowedRedirectUri_spec (parseURL : String → Option URLParts)
    (origin : String) :
    getAllowedRedirectUri parseURL origin none
        = some (origin ++ "/callback") ∧
    getAllowedRedirectUri parseURL origin (some "")
        = some (origin ++ "/callback") ∧
    (∀ r, r ≠ "" →
      (getAllowedRedirectUri parseURL origin (some r) = some r ↔
        ∃ u, parseURL r = some u ∧
          (u.pathname = "/callback" ∨
            jsEndsWith u.pathname "/callback" = true) ∧
          (u.origin = origin ∨
            ((u.hostname = "localhost" ∨ u.hostname = "127.0.0.1") ∧
             (u.port = "" ∨ regexDigitsPlus u.port = true)))) ∧
      (getAllowedRedirectUri parseURL origin (some r) = some r ∨
       getAllowedRedirectUri parseURL origin (some r) = none)) := by
  refine ⟨rfl, by simp [getAllowedRedirectUri], ?_⟩
  intro r hr
  cases hu : parseURL r with
  | none =>
      refine ⟨?_, Or.inr ?_⟩
      · simp [getAllowedRedirectUri, hr, hu]
      · simp [getAllowedRedirectUri, hr, hu]
  | some u =>
      by_cases hp : (u.pathname = "/callback" ∨
          jsEndsWith u.pathname "/callback" = true)
      · have hnp : ¬(u.pathname ≠ "/callback" ∧
            jsEndsWith u.pathname "/callback" = false) := by
          rintro ⟨h1, h2⟩
          rcases hp with h | h
          · exact h1 h
          · rw [h] at h2; exact Bool.noConfusion h2
        by_cases hq : (u.origin = origin ∨
            ((u.hostname = "localhost" ∨ u.hostname = "127.0.0.1") ∧
             (u.port = "" ∨ regexDigitsPlus u.port = true)))
        · have hres : getAllowedRedirectUri parseURL origin (some r)
              = some r := by
            simp [getAllowedRedirectUri, hr, hu, hnp, hq]
          refine ⟨?_, Or.inl hres⟩
          rw [hres]
          exact ⟨fun _ => ⟨u, rfl, hp, hq⟩, fun _ => rfl⟩
        · have hres : getAllowedRedirectUri parseURL origin (some r)
              = none := by
            simp [getAllowedRedirectUri, hr, hu, hnp, hq]
          refine ⟨?_, Or.inr hres⟩
          rw [hres]
          constructor
          · intro h; exact Option.noConfusion h
          · rintro ⟨u', hu', hp', hq'⟩
            injection hu' with he
            cases he
            exact absurd hq' hq
      · have hnp : (u.pathname ≠ "/callback" ∧
            jsEndsWith u.pathname "/callback" = false) := by
          push_neg at hp
          exact ⟨hp.1, Bool.eq_false_iff.mpr hp.2⟩
        have hres : getAllowedRedirectUri parseURL origin (some r)
            = none := by
          simp [getAllowedRedirectUri, hr, hu, hnp]
        refine ⟨?_, Or.inr hres⟩
        rw [hres]
        constructor
        · intro h; exact Option.noConfusion h
        · rintro ⟨u', hu', hp', hq'⟩
          injection hu' with he
          cases he
          exact absurd hp' hp

/-- C10 witness: a localhost callback URI with a numeric port is
returned unchanged even against a different origin. -/
theorem getAllowedRedirectUri_spec_witness :
    getAllowedRedirectUri
        (fun _ => some ⟨"http://localhost:3000", "/callback", "localhost",
          "3000"⟩)
        "http://example.com"
        (some "http://localhost:3000/callback")
      = some "http://localhost:3000/callback" := by
  exact (((getAllowedRedirectUri_spec
      (fun _ => some ⟨"http://localhost:3000", "/callback", "localhost",
        "3000"⟩)
      "http://example.com").2.2 "http://localhost:3000/callback"
      (by decide)).1).mpr
    ⟨⟨"http://localhost:3000", "/callback", "localhost", "3000"⟩, rfl,
      Or.inl rfl, Or.inr ⟨Or.inl rfl, Or.inr (by decide)⟩⟩


lemma runFallback_unfold (outcome : AccountId → Bool) (backoff now : Nat)
    (rem : List AccountId) (st : AccountId → AccountState)
    (selCalls netCalls : Nat) :
    runFallback outcome backoff now rem st selCalls netCalls =
      match selectNext rem st now with
      | none => ⟨Except.error (), selCalls + 1, netCalls, st⟩
      | some (a, rest) =>
          if outcome a then ⟨Except.ok a, selCalls + 1, netCalls + 1, st⟩
          else runFallback outcome backoff now rest
            (setQuotaCooldown st a (now + backoff)) (selCalls + 1)
            (netCalls + 1) := by
  rw [runFallback]
  cases hsel : selectNext rem st now <;> rfl

lemma selectNext_not_cooled {rem : List AccountId}
    {st : AccountId → AccountState} {now : Nat} {a : AccountId}
    {rest : List AccountId} (h : selectNext rem st now = some (a, rest)) :
    accountCooled (st a) now = false := by
  induction rem with
  | nil => exact Option.noConfusion h
  | cons b xs ih =>
      rw [selectNext] at h
      split_ifs at h with hc
      · exact ih h
      · injection h with h'
        obtain ⟨rfl, rfl⟩ := Prod.mk.injEq .. ▸ h'
        exact Bool.eq_false_iff.mpr hc

lemma runFallback_quota_run (outcome : AccountId → Bool)
    (backoff now : Nat) :
    ∀ (bad : List AccountId) (good : AccountId) (rest : List AccountId)
      (st : AccountId → AccountState) (selCalls netCalls : Nat),
      (bad ++ [good]).Nodup →
      (∀ b ∈ bad, outcome b = false) → outcome good = true →
      (∀ b ∈ bad, accountCooled (st b) now = false) →
      accountCooled (st good) now = false →
      (runFallback outcome backoff now (bad ++ good :: rest) st selCalls
          netCalls).result = Except.ok good ∧
      (runFallback outcome backoff now (bad ++ good :: rest) st selCalls
          netCalls).selectCalls = selCalls + bad.length + 1 := by
  intro bad
  induction bad with
  | nil =>
      intro good rest st selCalls netCalls _ _ hg _ hcg
      rw [List.nil_append, runFallback_unfold]
      have hsel : selectNext (good :: rest) st now = some (good, rest) := by
        rw [selectNext, if_neg]
        rw [hcg]
        simp
      rw [hsel]
      simp [hg]
  | cons b bad ih =>
      intro good rest st selCalls netCalls hnd hbad hg hcool hcg
      have hb : outcome b = false := hbad b (by simp)
      have hcb : accountCooled (st b) now = false := hcool b (by simp)
      rw [List.cons_append, runFallback_unfold]
      have hsel : selectNext (b :: (bad ++ good :: rest)) st now
          = some (b, bad ++ good :: rest) := by
        rw [selectNext, if_neg]
        rw [hcb]
        simp
      rw [hsel]
      simp only [hb, Bool.false_eq_true, if_false]
      have hbnot : b ∉ bad ++ [good] := (List.nodup_cons.mp hnd).1
      have hbnotbad : b ∉ bad := fun h => hbnot (List.mem_append_left _ h)
      have hbneqg : b ≠ good := fun h =>
        hbnot (List.mem_append_right _ (by simp [h]))
      have hres := ih good rest (setQuotaCooldown st b (now + backoff))
        (selCalls + 1) (netCalls + 1) (List.nodup_cons.mp hnd).2
        (fun x hx => hbad x (by simp [hx])) hg
        (fun x hx => by
          have hxb : x ≠ b := fun h => hbnotbad (h ▸ hx)
          rw [setQuotaCooldown, if_neg hxb]
          exact hcool x (by simp [hx]))
        (by
          rw [setQuotaCooldown, if_neg hbneqg.symm]
          exact hcg)
      refine ⟨hres.1, ?_⟩
      rw [hres.2]
      simp [List.length_cons]
      omega

/-- C2: selection never returns an account whose cooldown window lies
in the future at the moment of selection; and on a Combo whose first K
accounts fail with QuotaExceeded before a succeeding account,
`selectNext` is invoked exactly K+1 times and its (K+1)-th result is
the (K+1)-th account of the Combo. -/
theorem selectNext_cooldown_quota_scenario :
    (∀ (rem : List AccountId) (st : AccountId → AccountState) (now : Nat)
        (a : AccountId) (rest : List AccountId),
      selectNext rem st now = some (a, rest) →
      accountCooled (st a) now = false) ∧
    (∀ (outcome : AccountId → Bool) (backoff now : Nat)
        (bad : List AccountId) (good : AccountId) (rest : List AccountId)
        (st : AccountId → AccountState),
      (bad ++ [good]).Nodup →
      (∀ b ∈ bad, outcome b = false) → outcome good = true →
      (∀ b ∈ bad, accountCooled (st b) now = false) →
      accountCooled (st good) now = false →
      (executeCombo outcome backoff now (bad ++ good :: rest) st).1
          = Except.ok good ∧
      (executeCombo outcome backoff now (bad ++ good :: rest) st).2.1
          = bad.length + 1) := by
  constructor
  · intro rem st now a rest h
    exact selectNext_not_cooled h
  · intro outcome backoff now bad good rest st hnd hbad hg hcool hcg
    have h := runFallback_quota_run outcome backoff now bad good rest st 0 0
      hnd hbad hg hcool hcg
    simp only [executeCombo]
    rw [h.1]
    simp only []
    exact ⟨trivial, by rw [h.2]; omega⟩

/-- C2 witness: a two-account Combo whose first account exhausts its
quota is served by the second account after exactly two selection
calls. -/
theorem selectNext_cooldown_quota_scenario_witness :
    (executeCombo (fun a => decide (a = 1)) 5 0 ([0] ++ 1 :: [])
        (fun _ => ⟨none, none⟩)).1 = Except.ok 1 ∧
    (executeCombo (fun a => decide (a = 1)) 5 0 ([0] ++ 1 :: [])
        (fun _ => ⟨none, none⟩)).2.1 = 2 := by
  have h := selectNext_cooldown_quota_scenario.2 (fun a => decide (a = 1))
    5 0 [0] 1 [] (fun _ => ⟨none, none⟩)
    (by decide) (by decide) (by decide) (by decide) (by decide)
  exact ⟨h.1, h.2⟩

lemma selectNext_all_cooled {rem : List AccountId}
    {st : AccountId → AccountState} {now : Nat}
    (h : ∀ a ∈ rem, accountCooled (st a) now = true) :
    selectNext rem st now = none := by
  induction rem with
  | nil => rfl
  | cons b xs ih =>
      rw [selectNext, if_pos (h b (by simp))]
      exact ih (fun a ha => h a (by simp [ha]))

/-- C4: when every account of the Combo is cooled down at request
start, selection returns `Exhausted`, the Orchestrator surfaces a
single `ComboExhaustedError` with exactly one entry per account
citing that account's last recorded failure, and no network call is
performed. -/
theorem comboExhausted_spec (outcome : AccountId → Bool)
    (backoff now : Nat) (combo : List AccountId)
    (st : AccountId → AccountState)
    (h : ∀ a ∈ combo, accountCooled (st a) now = true) :
    selectNext combo st now = none ∧
    (executeCombo outcome backoff now combo st).1
        = Except.error (combo.map (fun a => (a, (st a).lastError))) ∧
    (combo.map (fun a => (a, (st a).lastError))).map Prod.fst = combo ∧
    (combo.map (fun a => (a, (st a).lastError))).length = combo.length ∧
    (executeCombo outcome backoff now combo st).2.2 = 0 := by
  have hsel := selectNext_all_cooled h
  have hrun : runFallback outcome backoff now combo st 0 0
      = ⟨Except.error (), 1, 0, st⟩ := by
    rw [runFallback_unfold, hsel]
  refine ⟨hsel, ?_, ?_, ?_, ?_⟩
  · simp only [executeCombo]
    rw [hrun]
    rfl
  · rw [List.map_map]
    exact List.map_id'' (fun a => rfl) combo
  · simp
  · simp only [executeCombo]
    rw [hrun]

/-- C4 witness: a two-account Combo, both cooled down at request
start, yields the aggregated error with one entry per account and no
network calls. -/
theorem comboExhausted_spec_witness :
    (executeCombo (fun _ => true) 5 0 [0, 1]
        (fun _ => ⟨some 10, some ErrClass.QuotaExceeded⟩)).1
      = Except.error [(0, some ErrClass.QuotaExceeded),
          (1, some ErrClass.QuotaExceeded)] ∧
    (executeCombo (fun _ => true) 5 0 [0, 1]
        (fun _ => ⟨some 10, some ErrClass.QuotaExceeded⟩)).2.2 = 0 := by
  have h := comboExhausted_spec (fun _ => true) 5 0 [0, 1]
    (fun _ => ⟨some 10, some ErrClass.QuotaExceeded⟩) (by decide)
  exact ⟨by rw [h.2.1]; rfl, h.2.2.2.2⟩

lemma runStream_no_terminal (events : List StreamEvent) :
    ∀ acc, StreamEvent.terminalMarker ∉ events →
      runStream events acc
        = StreamOutcome.truncated (acc.reverse ++ contentFrames events) := by
  induction events with
  | nil => intro acc _; simp [runStream, contentFrames]
  | cons e rest ih =>
      intro acc h
      cases e with
      | terminalMarker => exact absurd (by simp) h
      | contentDelta c =>
          rw [runStream, ih (c :: acc) (fun hm => h (by simp [hm]))]
          simp [contentFrames]

/-- C3: if the upstream closes without an explicit terminal marker,
the Streaming Controller reports a `StreamTruncatedError` carrying the
already-flushed frames — never a successful completion record. -/
theorem streamTruncated_spec (events : List StreamEvent)
    (h : StreamEvent.terminalMarker ∉ events) :
    processUpstream events = StreamOutcome.truncated (contentFrames events) ∧
    ∀ emitted, processUpstream events ≠ StreamOutcome.completed emitted := by
  have hr := runStream_no_terminal events [] h
  simp only [List.reverse_nil, List.nil_append] at hr
  refine ⟨hr, ?_⟩
  intro emitted hc
  rw [processUpstream] at hc
  rw [hr] at hc
  exact StreamOutcome.noConfusion hc

/-- C3 witness: three content deltas then connection close yield a
truncated-stream error with the three flushed frames. -/
theorem streamTruncated_spec_witness :
    processUpstream
        [StreamEvent.contentDelta "a", StreamEvent.contentDelta "b",
         StreamEvent.contentDelta "c"]
      = StreamOutcome.truncated ["a", "b", "c"] := by
  have h := (streamTruncated_spec
    [StreamEvent.contentDelta "a", StreamEvent.contentDelta "b",
     StreamEvent.contentDelta "c"] (by decide)).1
  rw [h]
  rfl

lemma buildTelemetryAux_invariant :
    ∀ (events : List (Nat × StreamEvent)) (t : StreamTelemetry) (a : Nat),
      t.ttfb = some a → t.tlb = none →
      (∀ p ∈ events, a ≤ p.1) →
      (buildTelemetryAux events t).ttfb = some a ∧
      (∀ b, (buildTelemetryAux events t).tlb = some b → a ≤ b) := by
  intro events
  induction events with
  | nil =>
      intro t a hf hl _
      refine ⟨hf, ?_⟩
      intro b hb
      rw [buildTelemetryAux] at hb
      rw [hl] at hb
      exact Option.noConfusion hb
  | cons p rest ih =>
      intro t a hf hl hts
      obtain ⟨ts, e⟩ := p
      have ht1 : recordFirstByte t ts = t := by
        rw [recordFirstByte, if_neg]
        rw [hf]
        simp
      cases e with
      | terminalMarker =>
          refine ⟨?_, ?_⟩
          · show ({ recordFirstByte t ts with tlb := some ts }).ttfb = some a
            rw [ht1]
            exact hf
          · intro b hb
            rw [show buildTelemetryAux ((ts, StreamEvent.terminalMarker)
                :: rest) t = { recordFirstByte t ts with tlb := some ts }
              from rfl] at hb
            have hb' : some ts = some b := hb
            injection hb' with hb2
            rw [← hb2]
            exact hts (ts, StreamEvent.terminalMarker) (by simp)
      | contentDelta c =>
          have hstep : buildTelemetryAux ((ts, StreamEvent.contentDelta c)
              :: rest) t
            = buildTelemetryAux rest
                { recordFirstByte t ts with
                  chunkCount := (recordFirstByte t ts).chunkCount + 1 } :=
            rfl
          rw [hstep, ht1]
          exact ih { t with chunkCount := t.chunkCount + 1 } a hf hl
            (fun q hq => hts q (by simp [hq]))

/-- C5: for every telemetry the Streaming Controller produces from an
in-order (nondecreasing-timestamp) upstream stream, when both
time-to-first-byte and time-of-last-byte are set, the latter is at
least the former. -/
theorem streamTelemetry_tlb_ge_ttfb (start : Nat)
    (events : List (Nat × StreamEvent))
    (hsort : (events.map Prod.fst).Sorted (· ≤ ·)) :
    ∀ a b, (buildTelemetry start events).ttfb = some a →
      (buildTelemetry start events).tlb = some b → a ≤ b := by
  intro a b hf hl
  cases events with
  | nil =>
      rw [buildTelemetry, buildTelemetryAux] at hf
      exact Option.noConfusion hf
  | cons p rest =>
      obtain ⟨ts, e⟩ := p
      have hrest : ∀ q ∈ rest, ts ≤ q.1 := by
        intro q hq
        have hsc : (∀ x ∈ rest.map Prod.fst, ts ≤ x) ∧
            (rest.map Prod.fst).Sorted (· ≤ ·) := List.sorted_cons.mp hsort
        exact hsc.1 q.1 (List.mem_map_of_mem Prod.fst hq)
      have hrec : recordFirstByte ⟨start, none, none, 0⟩ ts
          = ⟨start, some ts, none, 0⟩ := rfl
      cases e with
      | terminalMarker =>
          have : buildTelemetry start ((ts, StreamEvent.terminalMarker)
              :: rest) = ⟨start, some ts, some ts, 0⟩ := rfl
          rw [this] at hf hl
          injection hf with hf'
          injection hl with hl'
          subst hf'
          subst hl'
          exact le_refl _
      | contentDelta c =>
          have hstep : buildTelemetry start ((ts, StreamEvent.contentDelta c)
              :: rest)
            = buildTelemetryAux rest ⟨start, some ts, none, 1⟩ := rfl
          rw [hstep] at hf hl
          have hinv := buildTelemetryAux_invariant rest
            ⟨start, some ts, none, 1⟩ ts rfl rfl hrest
          have ha : a = ts := by
            rw [hinv.1] at hf
            injection hf with hf'
            exact hf'.symm
          subst ha
          exact hinv.2 b hl

/-- C5 witness: a stream observed at times 1 (first byte) and 3
(terminal marker) records `ttfb = 1 ≤ 3 = tlb`. -/
theorem streamTelemetry_tlb_ge_ttfb_witness :
    (buildTelemetry 0 [(1, StreamEvent.contentDelta "x"),
        (3, StreamEvent.terminalMarker)]).ttfb = some 1 ∧
    (buildTelemetry 0 [(1, StreamEvent.contentDelta "x"),
        (3, StreamEvent.terminalMarker)]).tlb = some 3 ∧
    (1 : Nat) ≤ 3 := by
  refine ⟨rfl, rfl, ?_⟩
  exact streamTelemetry_tlb_ge_ttfb 0
    [(1, StreamEvent.contentDelta "x"), (3, StreamEvent.terminalMarker)]
    (by decide) 1 3 rfl rfl

/-- C6: a same-vendor round trip through the canonical representation
is lossless (full identity, passthrough extras included); a
cross-vendor round trip may drop vendor-only extensions but preserves
the core fields model, messages (role, content) and stream flag. -/
theorem canonical_round_trip (fmt : SourceFormat) (r : RawRequest)
    (c : CanonicalRequest) (h : toCanonical fmt r = Except.ok c) :
    fromCanonical fmt c = r ∧
    ∀ target : SourceFormat,
      (fromCanonical target c).model = r.model ∧
      (fromCanonical target c).messages = r.messages ∧
      (fromCanonical target c).stream = r.stream := by
  rw [toCanonical] at h
  split_ifs at h with hf
  push_neg at hf
  injection h with h'
  subst h'
  constructor
  · cases r
    simp only at hf
    subst hf
    simp [fromCanonical]
  · intro target
    exact ⟨rfl, rfl, rfl⟩

/-- C6 witness: a concrete OpenAI-format request with a vendor-only
extension round-trips to itself through the canonical form. -/
theorem canonical_round_trip_witness :
    fromCanonical SourceFormat.openai
        { model := "gpt-x", messages := [("user", "hi")], stream := false,
          passthrough := some (SourceFormat.openai, [("logprobs", "2")]) }
      = { format := SourceFormat.openai, model := "gpt-x",
          messages := [("user", "hi")], stream := false,
          vendorExtras := [("logprobs", "2")] } := by
  exact (canonical_round_trip SourceFormat.openai
    { format := SourceFormat.openai, model := "gpt-x",
      messages := [("user", "hi")], stream := false,
      vendorExtras := [("logprobs", "2")] }
    { model := "gpt-x", messages := [("user", "hi")], stream := false,
      passthrough := some (SourceFormat.openai, [("logprobs", "2")]) }
    rfl).1

lemma runRefresh_requests_join :
    ∀ (cs : List Nat) (w : List Nat) (n : Nat) (res : List (Nat × Nat)),
      List.foldl refreshStep ⟨some w, n, res⟩
          (cs.map RefreshEvent.request)
        = ⟨some (w ++ cs), n, res⟩ := by
  intro cs
  induction cs with
  | nil => intro w n res; simp
  | cons c cs ih =>
      intro w n res
      rw [List.map_cons, List.foldl_cons]
      have hstep : refreshStep ⟨some w, n, res⟩ (RefreshEvent.request c)
          = ⟨some (w ++ [c]), n, res⟩ := rfl
      rw [hstep, ih]
      simp

/-- C7: a caller arriving while a refresh is in flight joins that
refresh's waiters without issuing a second underlying call; and for
every non-empty set of concurrent callers (in any interleaving order)
sharing one Account due for refresh, exactly one underlying
`refreshCredentials` call is issued and every caller observes the
same refreshed token. -/
theorem refresh_collapse :
    (∀ (st : RefreshState) (c : Nat) (w : List Nat),
      st.inFlight = some w →
      (refreshStep st (RefreshEvent.request c)).refreshCalls
          = st.refreshCalls ∧
      (refreshStep st (RefreshEvent.request c)).inFlight
          = some (w ++ [c])) ∧
    (∀ (cs : List Nat) (tok : Nat), cs ≠ [] →
      (runRefresh (cs.map RefreshEvent.request
          ++ [RefreshEvent.refreshComplete tok])).refreshCalls = 1 ∧
      (runRefresh (cs.map RefreshEvent.request
          ++ [RefreshEvent.refreshComplete tok])).results
        = cs.map (fun c => (c, tok)) ∧
      (runRefresh (cs.map RefreshEvent.request
          ++ [RefreshEvent.refreshComplete tok])).inFlight = none) := by
  constructor
  · intro st c w hw
    constructor
    · rw [refreshStep]
      rw [hw]
    · rw [refreshStep]
      rw [hw]
  · intro cs tok hne
    cases cs with
    | nil => exact absurd rfl hne
    | cons c cs' =>
        have hrun : runRefresh ((c :: cs').map RefreshEvent.request
            ++ [RefreshEvent.refreshComplete tok])
          = ⟨none, 1, (c :: cs').map (fun x => (x, tok))⟩ := by
          rw [runRefresh, List.foldl_append]
          have h1 : refreshStep ⟨none, 0, []⟩ (RefreshEvent.request c)
              = ⟨some [c], 1, []⟩ := rfl
          have h2 : List.foldl refreshStep ⟨none, 0, []⟩
              ((c :: cs').map RefreshEvent.request)
            = ⟨some ([c] ++ cs'), 1, []⟩ := by
            rw [List.map_cons, List.foldl_cons, h1,
              runRefresh_requests_join]
          rw [h2]
          rfl
        rw [hrun]
        exact ⟨rfl, rfl, rfl⟩

/-- C7 witness: two concurrent callers, one refresh call, both
observe token 42. -/
theorem refresh_collapse_witness :
    (runRefresh ([7, 8].map RefreshEvent.request
        ++ [RefreshEvent.refreshComplete 42])).refreshCalls = 1 ∧
    (runRefresh ([7, 8].map RefreshEvent.request
        ++ [RefreshEvent.refreshComplete 42])).results
      = [(7, 42), (8, 42)] := by
  have h := refresh_collapse.2 [7, 8] 42 (by decide)
  exact ⟨h.1, h.2.1⟩
